import Mathlib

/-!
Verification of the Panchayat election module (`createElection`,
`createVoteValidator`, `tallyPure`).

The JavaScript source is shallowly embedded:

* JS objects used as string-keyed records become association lists in key
  insertion order (`objGet` is property read, first match; JS objects never
  hold a duplicate key, so first match is the match).
* A tally value is `some n` when the stored property is a finite number `n`
  (vote counts are integers throughout the module), and `none` when it is any
  value that fails `Number.isFinite` (absent handled separately by `objGet`).
* A possibly-null/non-object argument is an `Option`: `none` stands for every
  JS value that is not a truthy object.
* The closure state of `createElection` is an explicit `ElectionState`
  threaded through the operations; the fixed roster is a parameter.
-/

namespace Panchayat

/-- A JS tally object: properties in insertion order; `some n` a finite
number, `none` a non-finite value stored at that key. -/
abbrev Tally := List (String × Option Int)

/-- JS property read `o[k]`: `none` when the key is absent. -/
def objGet {α : Type} : List (String × α) → String → Option α
  | [], _ => none
  | (k, v) :: rest, key => if k = key then some v else objGet rest key

/-- The object produced by `{ ...o, [key]: v }`: an existing key keeps its
position with the new value, a fresh key is appended. -/
def objSet {α : Type} : List (String × α) → String → α → List (String × α)
  | [], key, v => [(key, v)]
  | (k, w) :: rest, key, v =>
      if k = key then (key, v) :: rest else (k, w) :: objSet rest key v

/-- Lines 178-179: `safe[candidateId]` passed through `Number.isFinite`,
defaulting to 0 (absent key, or a stored non-finite value). -/
def finiteCount (safe : Tally) (candidateId : String) : Int :=
  match objGet safe candidateId with
  | some (some n) => n
  | _ => 0

/-- `tallyPure(currentTally, candidateId)` (lines 177-184). `currentTally` is
`none` when the argument is `null` or any non-object. -/
def tallyPure (currentTally : Option Tally) (candidateId : String) : Tally :=
  let safe := currentTally.getD []
  let current := finiteCount safe candidateId
  objSet safe candidateId (some (current + 1))

/-- A roster entry `{ id, name, party }` (well-formed candidate records; the
module performs no shape validation on candidates). -/
structure Candidate where
  id : String
  name : String
  party : String

/-- A voter argument as the JS module can receive it: `notObj` stands for
`null`/any non-object; in `obj`, `id`/`name` are `some s` exactly when the
property is the string `s`, and `age` is `some a` exactly when the property
is the finite number `a` (ages are modelled as integers). -/
inductive JVoter where
  | notObj
  | obj (id : Option String) (name : Option String) (age : Option Int)

/-- `voter.id` (`none` when absent or not a string). -/
def jvId : JVoter → Option String
  | .notObj => none
  | .obj i _ _ => i

/-- The private closure state of one election (lines 71-73). Sets are lists
in insertion order without duplicates. -/
structure ElectionState where
  votes : Tally
  registeredVoters : List String
  votedVoters : List String

/-- The state just after `createElection` returns. -/
def initState : ElectionState := ⟨[], [], []⟩

/-- `Set.prototype.add`: append the element when it is not yet present. -/
def setAdd (l : List String) (x : String) : List String :=
  if x ∈ l then l else l ++ [x]

/-- `isValidVoter` (lines 75-81): well-formed object, non-empty string `id`
and `name`, finite `age ≥ 18`. -/
def isValidVoter : JVoter → Bool
  | .notObj => false
  | .obj id name age =>
      match id, name, age with
      | some i, some n, some a =>
          ¬ i.length = 0 && (¬ n.length = 0 && decide (18 ≤ a))
      | _, _, _ => false

/-- `registerVoter` (lines 83-88), returning the JS boolean and the state
after the call. When the voter is valid, `jvId` is `some`, so the `getD ""`
default is never consulted on the paths that read the id. -/
def registerVoter (st : ElectionState) (voter : JVoter) : Bool × ElectionState :=
  if isValidVoter voter then
    if (jvId voter).getD "" ∈ st.registeredVoters then (false, st)
    else (true, { st with registeredVoters := setAdd st.registeredVoters ((jvId voter).getD "") })
  else (false, st)

/-- The argument `{ voterId, candidateId }` passed to `onSuccess`. -/
structure VotePayload where
  voterId : String
  candidateId : String

/-- `candidateById.has(candidateId)`: the map is keyed by the roster ids. -/
def knownCandidate (roster : List Candidate) (cid : String) : Bool :=
  cid ∈ roster.map Candidate.id

/-- `castVote` (lines 90-107). The callbacks are `some f` when the JS
argument is callable and `none` otherwise; `undefVal` is the embedding of
the JS value `undefined` at the call's result type, so
`onSuccess.getD (fun _ => undefVal)` is line 91's
`typeof onSuccess === 'function' ? onSuccess : () => undefined` (and line 92
likewise). Returns the invoked callback's result and the state after the
call. -/
def castVote {α : Type} (roster : List Candidate) (st : ElectionState)
    (voterId candidateId : String)
    (onSuccess : Option (VotePayload → α)) (onError : Option (String → α))
    (undefVal : α) : α × ElectionState :=
  let successCb := onSuccess.getD (fun _ => undefVal)
  let errorCb := onError.getD (fun _ => undefVal)
  if voterId ∈ st.registeredVoters then
    if knownCandidate roster candidateId then
      if voterId ∈ st.votedVoters then (errorCb "voter already voted", st)
      else
        (successCb ⟨voterId, candidateId⟩,
         { st with votes := tallyPure (some st.votes) candidateId,
                   votedVoters := setAdd st.votedVoters voterId })
    else (errorCb "invalid candidate", st)
  else (errorCb "voter not registered", st)

/-- `castVote` with the outcome reified: `Sum.inl reason` when `onError`
would be invoked with `reason`, `Sum.inr payload` when `onSuccess` would be
invoked with `payload`. -/
def castVoteStep (roster : List Candidate) (st : ElectionState)
    (voterId candidateId : String) : (String ⊕ VotePayload) × ElectionState :=
  castVote roster st voterId candidateId (some Sum.inr) (some Sum.inl) (Sum.inl "")

/-- One call on the object returned by `createElection`. `results` and
`winner` are read-only observers. -/
inductive Op where
  | reg (v : JVoter)
  | cast (voterId candidateId : String)
  | results
  | winner

/-- The state after one operation (observers leave the state as is). -/
def applyOp (roster : List Candidate) (st : ElectionState) : Op → ElectionState
  | .reg v => (registerVoter st v).2
  | .cast vid cid => (castVoteStep roster st vid cid).2
  | .results => st
  | .winner => st

/-- The state after a sequence of operations. -/
def runOps (roster : List Candidate) : ElectionState → List Op → ElectionState
  | st, [] => st
  | st, op :: ops => runOps roster (applyOp roster st op) ops

/-- The one-vote-per-voter invariant: each voter id occurs in `votedVoters`
at most once, and only when it is registered. -/
def Inv (st : ElectionState) : Prop :=
  st.votedVoters.Nodup ∧ ∀ v ∈ st.votedVoters, v ∈ st.registeredVoters

/-- One record of `getResults()`: `{ id, name, party, votes }`. -/
structure ResultRow where
  id : String
  name : String
  party : String
  votes : Int

/-- Line 114's `votes[c.id] ?? 0`. The election's tally only ever stores
finite counts (`TallyNN` below, preserved by every operation), so collapsing
a stored non-finite value to 0 here agrees with `?? 0` on every state the
module can reach. -/
def rowVotes (t : Tally) (cid : String) : Int :=
  match objGet t cid with
  | some (some n) => n
  | _ => 0

/-- Lines 110-115: one row per roster candidate, in roster order. -/
def resultRowsOf (roster : List Candidate) (t : Tally) : List ResultRow :=
  roster.map fun c => ⟨c.id, c.name, c.party, rowVotes t c.id⟩

/-- The index stored for a key in a JS `Map` built from an indexed list:
a duplicated key keeps the last index written. -/
def lastIndexOf : List String → String → Option Nat
  | [], _ => none
  | a :: rest, x =>
      match lastIndexOf rest x with
      | some i => some (i + 1)
      | none => if a = x then some 0 else none

/-- Line 123's `candidateIndex.get(id) ?? 0`. -/
def candIdx (roster : List Candidate) (cid : String) : Nat :=
  (lastIndexOf (roster.map Candidate.id) cid).getD 0

/-- The default comparator of lines 121-124 read as a total preorder: `a`
sorts no later than `b` iff the comparator value on `(a, b)` is `≤ 0`, i.e.
strictly more votes, or equal votes and a no-larger roster index. -/
def defaultLE (roster : List Candidate) (a b : ResultRow) : Bool :=
  if a.votes = b.votes then decide (candIdx roster a.id ≤ candIdx roster b.id)
  else decide (b.votes < a.votes)

/-- Insert into a sorted list, after every element that sorts no later than
the new one (the stable position). -/
def insertSorted {α : Type} (le : α → α → Bool) (x : α) : List α → List α
  | [] => [x]
  | y :: ys => if le x y then x :: y :: ys else y :: insertSorted le x ys

/-- A stable sort, as `Array.prototype.sort` is specified to be for a
consistent comparator. -/
def sortBy {α : Type} (le : α → α → Bool) : List α → List α
  | [] => []
  | x :: xs => insertSorted le x (sortBy le xs)

/-- `getResults()` with no comparator argument (lines 109-125, the default
branch; the `sortFn` branch hands ordering to the caller and is outside the
claims). -/
def getResults (roster : List Candidate) (st : ElectionState) : List ResultRow :=
  sortBy (defaultLE roster) (resultRowsOf roster st.votes)

/-- `candidateById.get(cid)`: the `Map` keeps the last candidate written
under a key. -/
def lastCandidate : List Candidate → String → Option Candidate
  | [], _ => none
  | c :: rest, cid =>
      match lastCandidate rest cid with
      | some c' => some c'
      | none => if c.id = cid then some c else none

/-- `getWinner()` (lines 127-133). `{ ...winner }` is a fresh shallow copy;
in this embedding it is the same record value. -/
def getWinner (roster : List Candidate) (st : ElectionState) : Option Candidate :=
  match getResults roster st with
  | [] => none
  | r :: _ =>
      if r.votes = 0 then none
      else
        match lastCandidate roster r.id with
        | some w => some w
        | none => none

/-- Every stored tally value is a finite, non-negative count. -/
def TallyNN (t : Tally) : Prop :=
  ∀ p ∈ t, ∃ n : Int, p.2 = some n ∧ 0 ≤ n

/-- A JS value stored in a voter-record field, as the validator
distinguishes them: `jnum` is a finite number, `jnan` any non-finite
number. -/
inductive JValue where
  | jundefined
  | jnull
  | jbool (b : Bool)
  | jnum (n : Int)
  | jnan
  | jstr (s : String)

/-- The `rules` object: `minAge` is `some n` exactly when `rules.minAge` is
the finite number `n`; `requiredFields` is `some fs` exactly when
`rules.requiredFields` is an array (of field names). `none` rules stands
for `null`/undefined/any falsy rules argument. -/
structure VRules where
  minAge : Option Int
  requiredFields : Option (List String)

/-- The `{ valid, reason? }` record the validator returns. -/
inductive VResult where
  | valid
  | invalid (reason : String)

/-- Line 144: `rules && Number.isFinite(rules.minAge) ? rules.minAge : 18`. -/
def minAgeOf (rules : Option VRules) : Int :=
  match rules with
  | some r => r.minAge.getD 18
  | none => 18

/-- Line 145: `rules && Array.isArray(rules.requiredFields) ?
rules.requiredFields : []`. -/
def requiredFieldsOf (rules : Option VRules) : List String :=
  match rules with
  | some r => r.requiredFields.getD []
  | none => []

/-- `voter[field]`: an absent property reads as `undefined`. -/
def fieldGet (fields : List (String × JValue)) (f : String) : JValue :=
  (objGet fields f).getD .jundefined

/-- Lines 154-159: a field value counts as missing when it is `undefined`,
`null`, or the empty string. -/
def isMissing : JValue → Bool
  | .jundefined => true
  | .jnull => true
  | .jstr s => decide (s.length = 0)
  | _ => false

/-- The `for (const field of requiredFields)` loop (lines 152-160): the
first required field whose value is missing, if any. -/
def checkFields (fields : List (String × JValue)) : List String → Option String
  | [] => none
  | f :: rest =>
      if isMissing (fieldGet fields f) then some f else checkFields fields rest

/-- `voter.age` through `Number.isFinite` (line 162). -/
def ageOf (fields : List (String × JValue)) : Option Int :=
  match fieldGet fields "age" with
  | .jnum n => some n
  | _ => none

/-- `createVoteValidator(rules)` applied to a voter (lines 143-168). The
voter is `none` for `null`/any non-object. -/
def createVoteValidator (rules : Option VRules)
    (voter : Option (List (String × JValue))) : VResult :=
  match voter with
  | none => .invalid "invalid voter"
  | some fields =>
      match checkFields fields (requiredFieldsOf rules) with
      | some f => .invalid ("missing field: " ++ f)
      | none =>
          match ageOf fields with
          | some a => if a < minAgeOf rules then .invalid "underage" else .valid
          | none => .invalid "underage"

deriving instance DecidableEq for JValue

deriving instance DecidableEq for VResult

deriving instance DecidableEq for ResultRow

deriving instance DecidableEq for Candidate

deriving instance DecidableEq for JVoter

deriving instance DecidableEq for ElectionState

deriving instance DecidableEq for VotePayload

@[simp]
theorem objGet_objSet_self {α : Type} (l : List (String × α)) (k : String) (v : α) :
    objGet (objSet l k v) k = some v := by
  induction l with
  | nil => simp [objGet, objSet]
  | cons p rest ih =>
      obtain ⟨k', w⟩ := p
      by_cases h : k' = k
      · subst h; simp [objGet, objSet]
      · simp [objGet, objSet, h, ih]

theorem objGet_objSet_ne {α : Type} (l : List (String × α)) (k k' : String) (v : α)
    (h : k' ≠ k) : objGet (objSet l k v) k' = objGet l k' := by
  have hkk : ¬ k = k' := fun h' => h h'.symm
  induction l with
  | nil => simp [objGet, objSet, hkk]
  | cons p rest ih =>
      obtain ⟨k0, w⟩ := p
      by_cases h0 : k0 = k
      · subst h0
        simp [objGet, objSet, hkk]
      · by_cases h1 : k0 = k'
        · subst h1; simp [objGet, objSet, h0]
        · simp [objGet, objSet, h0, h1, ih]

/-- C6: `tallyPure` returns a mapping equal to its argument except that
`candidateId`'s count is one more (0 when absent); the two documented
examples hold on the nose. Mutation of the argument is impossible in this
embedding, which is a pure function of the input object. -/
theorem tallyPure_functional_correctness (t : Tally) (c k : String) :
    (k ≠ c → objGet (tallyPure (some t) c) k = objGet t k) ∧
    objGet (tallyPure (some t) c) c = some (some (finiteCount t c + 1)) ∧
    tallyPure (some [("a", some 1)]) "a" = [("a", some 2)] ∧
    tallyPure (some []) "b" = [("b", some 1)] := by
  refine ⟨fun hk => ?_, ?_, by decide, by decide⟩
  · unfold tallyPure
    exact objGet_objSet_ne t c k (some (finiteCount t c + 1)) hk
  · unfold tallyPure
    simp

/-- Witness for C6 at concrete inputs. -/
theorem tallyPure_functional_correctness_witness :
    objGet (tallyPure (some [("a", some 1), ("x", some 5)]) "a") "x" = some (some 5) :=
  (tallyPure_functional_correctness [("a", some 1), ("x", some 5)] "a" "x").1 (by decide)

/-- C10: for every `currentTally` value, including `null`/non-objects
(`none`) and tallies whose stored entry is not a finite number, the result
holds a finite count at `candidateId`, namely the prior finite count plus
one (the prior count being 0 for a missing, non-object, or non-finite
source). -/
theorem tallyPure_total_defensive (t : Option Tally) (c : String) :
    objGet (tallyPure t c) c = some (some (finiteCount (t.getD []) c + 1)) ∧
    tallyPure none c = [(c, some 1)] := by
  constructor
  · unfold tallyPure
    simp
  · rfl

theorem string_length_eq_zero (s : String) : s.length = 0 ↔ s = "" := by
  constructor
  · intro h
    cases s with
    | mk data =>
        have hd : data = [] := by simpa [String.length] using h
        subst hd
        rfl
  · intro h
    subst h
    rfl

theorem isValidVoter_iff (v : JVoter) :
    isValidVoter v = true ↔
      ∃ i n a, v = .obj (some i) (some n) (some a) ∧ i ≠ "" ∧ n ≠ "" ∧ 18 ≤ a := by
  cases v with
  | notObj => simp [isValidVoter]
  | obj i n a =>
      cases i <;> cases n <;> cases a <;>
        simp [isValidVoter, string_length_eq_zero, and_assoc]

/-- C2: the three `castVote` validation checks run in source order, the
first failing one reports its literal reason through `onError` (whose result
is returned), and every error path leaves the state untouched. -/
theorem castVote_error_paths {α : Type} (roster : List Candidate) (st : ElectionState)
    (vid cid : String) (f : VotePayload → α) (g : String → α) (u : α) :
    (vid ∉ st.registeredVoters →
       castVote roster st vid cid (some f) (some g) u = (g "voter not registered", st)) ∧
    (vid ∈ st.registeredVoters → knownCandidate roster cid = false →
       castVote roster st vid cid (some f) (some g) u = (g "invalid candidate", st)) ∧
    (vid ∈ st.registeredVoters → knownCandidate roster cid = true →
       vid ∈ st.votedVoters →
       castVote roster st vid cid (some f) (some g) u = (g "voter already voted", st)) := by
  refine ⟨fun h1 => ?_, fun h1 h2 => ?_, fun h1 h2 h3 => ?_⟩
  · simp [castVote, h1]
  · simp [castVote, h1, h2]
  · simp [castVote, h1, h2, h3]

/-- Witness for C2: an unregistered voter is reported via `onError` with
`"voter not registered"` and the state is unchanged. -/
theorem castVote_error_paths_witness :
    castVote ([⟨"C1", "Sarpanch Ram", "Janata"⟩] : List Candidate) initState
        "Vx" "C1" (some (fun p : VotePayload => p.voterId)) (some (fun r => r)) "u"
      = ("voter not registered", initState) :=
  (castVote_error_paths [⟨"C1", "Sarpanch Ram", "Janata"⟩] initState "Vx" "C1"
      (fun p : VotePayload => p.voterId) (fun r => r) "u").1 (by decide)

/-- C3: on a valid vote the tally is replaced by `tallyPure`, the voter id
joins `votedVoters` and `onSuccess` receives `{ voterId, candidateId }`; in
every case the call returns exactly what the invoked callback returns, a
non-callable callback being replaced by a no-op returning `undefined`
(`undefVal`). -/
theorem castVote_success_passthrough {α : Type} (roster : List Candidate)
    (st : ElectionState) (vid cid : String)
    (os : Option (VotePayload → α)) (oe : Option (String → α)) (u : α) :
    (vid ∈ st.registeredVoters → knownCandidate roster cid = true →
       vid ∉ st.votedVoters →
       castVoteStep roster st vid cid =
         (Sum.inr ⟨vid, cid⟩,
          { st with votes := tallyPure (some st.votes) cid,
                    votedVoters := setAdd st.votedVoters vid })) ∧
    castVote roster st vid cid os oe u =
      ((match (castVoteStep roster st vid cid).1 with
        | Sum.inl r => (oe.getD fun _ => u) r
        | Sum.inr p => (os.getD fun _ => u) p),
       (castVoteStep roster st vid cid).2) := by
  constructor
  · intro h1 h2 h3
    simp [castVoteStep, castVote, h1, h2, h3]
  · by_cases h1 : vid ∈ st.registeredVoters <;>
      by_cases h2 : knownCandidate roster cid <;>
      by_cases h3 : vid ∈ st.votedVoters <;>
      simp [castVote, castVoteStep, h1, h2, h3]

/-- Witness for C3: a concrete valid vote records the tally and the voted
set exactly as stated. -/
theorem castVote_success_passthrough_witness :
    castVoteStep ([⟨"C1", "Sarpanch Ram", "Janata"⟩] : List Candidate)
        ⟨[], ["V1"], []⟩ "V1" "C1"
      = (Sum.inr ⟨"V1", "C1"⟩, ⟨[("C1", some 1)], ["V1"], ["V1"]⟩) :=
  (castVote_success_passthrough [⟨"C1", "Sarpanch Ram", "Janata"⟩]
      ⟨[], ["V1"], []⟩ "V1" "C1" (some Sum.inr) (some Sum.inl) (Sum.inl "")).1
    (by decide) (by decide) (by decide)

/-- C7: `registerVoter` succeeds (returns `true` and inserts the id) exactly
for a well-formed voter with non-empty string id and name and finite age at
least 18 whose id is not yet registered; every other case returns `false`
with no state change, and after one success any repeat with the same id
returns `false`. -/
theorem registerVoter_spec (st : ElectionState) (v : JVoter) :
    (isValidVoter v = true ↔
       ∃ i n a, v = .obj (some i) (some n) (some a) ∧ i ≠ "" ∧ n ≠ "" ∧ 18 ≤ a) ∧
    (isValidVoter v = false → registerVoter st v = (false, st)) ∧
    (∀ i, jvId v = some i → i ∈ st.registeredVoters →
       registerVoter st v = (false, st)) ∧
    (∀ i, isValidVoter v = true → jvId v = some i → i ∉ st.registeredVoters →
       registerVoter st v =
         (true, { st with registeredVoters := setAdd st.registeredVoters i })) ∧
    (∀ st', registerVoter st v = (true, st') →
       ∀ v', jvId v' = jvId v → (registerVoter st' v').1 = false) := by
  refine ⟨isValidVoter_iff v, fun hv => ?_, fun i hi hmem => ?_, fun i hv hi hmem => ?_, ?_⟩
  · simp [registerVoter, hv]
  · by_cases hv : isValidVoter v
    · simp [registerVoter, hv, hi, hmem]
    · simp [registerVoter, hv]
  · simp [registerVoter, hv, hi, hmem]
  · intro st' hreg v' hid
    by_cases hv : isValidVoter v
    · obtain ⟨i, n, a, hv_eq, -, -, -⟩ := (isValidVoter_iff v).1 hv
      have hi : jvId v = some i := by rw [hv_eq]; rfl
      by_cases hmem : i ∈ st.registeredVoters
      · simp [registerVoter, hv, hi, hmem] at hreg
      · have hst' : st' = { st with registeredVoters := setAdd st.registeredVoters i } := by
          have h := hreg
          simp [registerVoter, hv, hi, hmem] at h
          exact h.symm
        by_cases hv' : isValidVoter v'
        · have hmem' : i ∈ st'.registeredVoters := by
            simp [hst', setAdd, hmem]
          simp [registerVoter, hv', hid, hi, hmem']
        · simp [registerVoter, hv']
    · simp [registerVoter, hv] at hreg

/-- Witness for C7: a concrete valid voter registers once, and a second
attempt with the same id fails. -/
theorem registerVoter_spec_witness :
    registerVoter initState (.obj (some "V1") (some "Mohan") (some 25)) =
      (true, { initState with registeredVoters := setAdd [] "V1" }) ∧
    (registerVoter { initState with registeredVoters := setAdd [] "V1" }
        (.obj (some "V1") (some "Mohan") (some 25))).1 = false := by
  constructor
  · exact (registerVoter_spec initState (.obj (some "V1") (some "Mohan") (some 25))).2.2.2.1
      "V1" (by decide) (by decide) (by decide)
  · exact (registerVoter_spec initState (.obj (some "V1") (some "Mohan") (some 25))).2.2.2.2
      { initState with registeredVoters := setAdd [] "V1" }
      (by decide) (.obj (some "V1") (some "Mohan") (some 25)) (by decide)

theorem mem_setAdd_of_mem {l : List String} {x : String} (y : String) (h : x ∈ l) :
    x ∈ setAdd l y := by
  unfold setAdd
  split <;> simp [h]

theorem mem_setAdd_self (l : List String) (x : String) : x ∈ setAdd l x := by
  unfold setAdd
  split
  · assumption
  · simp

theorem nodup_setAdd {l : List String} (h : l.Nodup) (x : String) :
    (setAdd l x).Nodup := by
  by_cases hx : x ∈ l
  · simpa [setAdd, hx] using h
  · simp [setAdd, hx, List.nodup_append, h]

theorem castVoteStep_inr (roster : List Candidate) (st : ElectionState)
    (vid cid : String) (p : VotePayload)
    (h : (castVoteStep roster st vid cid).1 = Sum.inr p) :
    vid ∈ st.registeredVoters ∧ knownCandidate roster cid = true ∧
    vid ∉ st.votedVoters ∧
    (castVoteStep roster st vid cid).2 =
      { st with votes := tallyPure (some st.votes) cid,
                votedVoters := setAdd st.votedVoters vid } := by
  by_cases h1 : vid ∈ st.registeredVoters
  · by_cases h2 : knownCandidate roster cid
    · by_cases h3 : vid ∈ st.votedVoters
      · simp [castVoteStep, castVote, h1, h2, h3] at h
      · exact ⟨h1, h2, h3, by simp [castVoteStep, castVote, h1, h2, h3]⟩
    · simp [castVoteStep, castVote, h1, h2] at h
  · simp [castVoteStep, castVote, h1] at h

theorem castVoteStep_already_voted (roster : List Candidate) (st : ElectionState)
    (vid cid : String) (h1 : vid ∈ st.registeredVoters)
    (h2 : knownCandidate roster cid = true) (h3 : vid ∈ st.votedVoters) :
    castVoteStep roster st vid cid = (Sum.inl "voter already voted", st) := by
  simp [castVoteStep, castVote, h1, h2, h3]

theorem registerVoter_snd (st : ElectionState) (v : JVoter) :
    (registerVoter st v).2 = st ∨
    ∃ i, (registerVoter st v).2 =
      { st with registeredVoters := setAdd st.registeredVoters i } := by
  by_cases hv : isValidVoter v
  · by_cases hmem : (jvId v).getD "" ∈ st.registeredVoters
    · left; simp [registerVoter, hv, hmem]
    · right; exact ⟨(jvId v).getD "", by simp [registerVoter, hv, hmem]⟩
  · left; simp [registerVoter, hv]

theorem castVoteStep_inl_snd (roster : List Candidate) (st : ElectionState)
    (vid cid r : String) (h : (castVoteStep roster st vid cid).1 = Sum.inl r) :
    (castVoteStep roster st vid cid).2 = st := by
  by_cases h1 : vid ∈ st.registeredVoters
  · by_cases h2 : knownCandidate roster cid
    · by_cases h3 : vid ∈ st.votedVoters
      · simp [castVoteStep, castVote, h1, h2, h3]
      · simp [castVoteStep, castVote, h1, h2, h3] at h
    · simp [castVoteStep, castVote, h1, h2]
  · simp [castVoteStep, castVote, h1]

theorem applyOp_inv (roster : List Candidate) (st : ElectionState) (op : Op)
    (h : Inv st) : Inv (applyOp roster st op) := by
  obtain ⟨hnd, hsub⟩ := h
  cases op with
  | reg v =>
      rcases registerVoter_snd st v with hst | ⟨i, hst⟩ <;>
        simp only [applyOp, hst]
      · exact ⟨hnd, hsub⟩
      · exact ⟨hnd, fun x hx => mem_setAdd_of_mem i (hsub x hx)⟩
  | cast vid cid =>
      cases hout : (castVoteStep roster st vid cid).1 with
      | inl r =>
          have hst := castVoteStep_inl_snd roster st vid cid r hout
          simp only [applyOp, hst]
          exact ⟨hnd, hsub⟩
      | inr p =>
          obtain ⟨h1, h2, h3, hst⟩ := castVoteStep_inr roster st vid cid p hout
          simp only [applyOp, hst]
          refine ⟨nodup_setAdd hnd vid, fun x hx => ?_⟩
          rcases (by simpa [setAdd, h3] using hx : x ∈ st.votedVoters ∨ x = vid) with hc | hc
          · exact hsub x hc
          · subst hc; exact h1
  | results => exact ⟨hnd, hsub⟩
  | winner => exact ⟨hnd, hsub⟩

theorem applyOp_voted_mono (roster : List Candidate) (st : ElectionState) (op : Op)
    {x : String} (h : x ∈ st.votedVoters) : x ∈ (applyOp roster st op).votedVoters := by
  cases op with
  | reg v =>
      rcases registerVoter_snd st v with hst | ⟨i, hst⟩ <;> simp only [applyOp, hst] <;>
        exact h
  | cast vid cid =>
      cases hout : (castVoteStep roster st vid cid).1 with
      | inl r =>
          have hst := castVoteStep_inl_snd roster st vid cid r hout
          simp only [applyOp, hst]
          exact h
      | inr p =>
          obtain ⟨-, -, -, hst⟩ := castVoteStep_inr roster st vid cid p hout
          simp only [applyOp, hst]
          exact mem_setAdd_of_mem vid h
  | results => exact h
  | winner => exact h

theorem runOps_inv (roster : List Candidate) (ops : List Op) (st : ElectionState)
    (h : Inv st) : Inv (runOps roster st ops) := by
  induction ops generalizing st with
  | nil => exact h
  | cons op ops ih => exact ih _ (applyOp_inv roster st op h)

theorem runOps_voted_mono (roster : List Candidate) (ops : List Op)
    (st : ElectionState) {x : String} (h : x ∈ st.votedVoters) :
    x ∈ (runOps roster st ops).votedVoters := by
  induction ops generalizing st with
  | nil => exact h
  | cons op ops ih => exact ih _ (applyOp_voted_mono roster st op h)

/-- C1 counterexample: after `V1` successfully votes for `C1`, a later
`castVote("V1", "Cx")` with an unknown candidate id reports
`"invalid candidate"`, not `"voter already voted"` — the candidate check
runs before the already-voted check. -/
theorem one_vote_per_voter_counterexample :
    (castVoteStep [⟨"C1", "Sarpanch Ram", "Janata"⟩]
        ((registerVoter initState (.obj (some "V1") (some "Mohan") (some 25))).2)
        "V1" "C1").1 = Sum.inr ⟨"V1", "C1"⟩ ∧
    (castVoteStep [⟨"C1", "Sarpanch Ram", "Janata"⟩]
        (castVoteStep [⟨"C1", "Sarpanch Ram", "Janata"⟩]
          ((registerVoter initState (.obj (some "V1") (some "Mohan") (some 25))).2)
          "V1" "C1").2
        "V1" "Cx").1 = Sum.inl "invalid candidate" ∧
    (Sum.inl "invalid candidate" : String ⊕ VotePayload) ≠
      Sum.inl "voter already voted" := by
  decide

/-- C1 (amended): over every sequence of operations, a voter id is in
`votedVoters` at most once and only when registered; and after a successful
`castVote(vid, cid)`, every later `castVote` with the same voter id and a
known candidate id reports `"voter already voted"` and leaves the whole
state unchanged (with an unknown candidate id the earlier
`"invalid candidate"` check fires instead, and the state is still
unchanged). -/
theorem one_vote_per_voter (roster : List Candidate) (ops1 ops2 : List Op)
    (vid cid cid' : String)
    (hsucc : (castVoteStep roster (runOps roster initState ops1) vid cid).1 =
      Sum.inr ⟨vid, cid⟩)
    (hc' : knownCandidate roster cid' = true) :
    (∀ ops : List Op, Inv (runOps roster initState ops)) ∧
    castVoteStep roster
        (runOps roster
          (castVoteStep roster (runOps roster initState ops1) vid cid).2 ops2)
        vid cid'
      = (Sum.inl "voter already voted",
         runOps roster
           (castVoteStep roster (runOps roster initState ops1) vid cid).2 ops2) := by
  have hinv0 : Inv initState := ⟨List.nodup_nil, by intro v hv; cases hv⟩
  have hall : ∀ ops : List Op, Inv (runOps roster initState ops) :=
    fun ops => runOps_inv roster ops initState hinv0
  refine ⟨hall, ?_⟩
  obtain ⟨h1, h2, h3, hst⟩ :=
    castVoteStep_inr roster (runOps roster initState ops1) vid cid ⟨vid, cid⟩ hsucc
  have hvoted1 :
      vid ∈ (castVoteStep roster (runOps roster initState ops1) vid cid).2.votedVoters := by
    rw [hst]
    exact mem_setAdd_self _ vid
  have hinv1 : Inv (castVoteStep roster (runOps roster initState ops1) vid cid).2 :=
    applyOp_inv roster (runOps roster initState ops1) (.cast vid cid) (hall ops1)
  have hvoted2 :
      vid ∈ (runOps roster
        (castVoteStep roster (runOps roster initState ops1) vid cid).2 ops2).votedVoters :=
    runOps_voted_mono roster ops2 _ hvoted1
  have hinv2 : Inv (runOps roster
      (castVoteStep roster (runOps roster initState ops1) vid cid).2 ops2) :=
    runOps_inv roster ops2 _ hinv1
  exact castVoteStep_already_voted roster _ vid cid' (hinv2.2 vid hvoted2) hc' hvoted2

/-- Witness for C1 (amended) at a concrete run. -/
theorem one_vote_per_voter_witness :
    castVoteStep [⟨"C1", "Sarpanch Ram", "Janata"⟩]
        (runOps [⟨"C1", "Sarpanch Ram", "Janata"⟩]
          (castVoteStep [⟨"C1", "Sarpanch Ram", "Janata"⟩]
            (runOps [⟨"C1", "Sarpanch Ram", "Janata"⟩] initState
              [Op.reg (.obj (some "V1") (some "Mohan") (some 25))])
            "V1" "C1").2 [])
        "V1" "C1"
      = (Sum.inl "voter already voted",
         runOps [⟨"C1", "Sarpanch Ram", "Janata"⟩]
           (castVoteStep [⟨"C1", "Sarpanch Ram", "Janata"⟩]
             (runOps [⟨"C1", "Sarpanch Ram", "Janata"⟩] initState
               [Op.reg (.obj (some "V1") (some "Mohan") (some 25))])
             "V1" "C1").2 []) :=
  (one_vote_per_voter [⟨"C1", "Sarpanch Ram", "Janata"⟩]
      [Op.reg (.obj (some "V1") (some "Mohan") (some 25))] [] "V1" "C1" "C1"
      (by decide) (by decide)).2

theorem insertSorted_perm {α : Type} (le : α → α → Bool) (x : α) (l : List α) :
    (insertSorted le x l).Perm (x :: l) := by
  induction l with
  | nil => exact List.Perm.refl _
  | cons y ys ih =>
      unfold insertSorted
      split
      · exact List.Perm.refl _
      · exact (ih.cons y).trans (List.Perm.swap x y ys)

theorem sortBy_perm {α : Type} (le : α → α → Bool) (l : List α) :
    (sortBy le l).Perm l := by
  induction l with
  | nil => exact List.Perm.refl _
  | cons x xs ih =>
      exact (insertSorted_perm le x (sortBy le xs)).trans (ih.cons x)

theorem insertSorted_pairwise {α : Type} {le : α → α → Bool}
    (htot : ∀ a b, le a b = true ∨ le b a = true)
    (htrans : ∀ {a b c}, le a b = true → le b c = true → le a c = true)
    (x : α) {l : List α} (h : l.Pairwise fun a b => le a b = true) :
    (insertSorted le x l).Pairwise fun a b => le a b = true := by
  induction l with
  | nil => simp [insertSorted]
  | cons y ys ih =>
      rw [List.pairwise_cons] at h
      obtain ⟨hy, hys⟩ := h
      unfold insertSorted
      by_cases hxy : le x y = true
      · rw [if_pos hxy]
        refine List.pairwise_cons.mpr ⟨?_, List.pairwise_cons.mpr ⟨hy, hys⟩⟩
        intro z hz
        rcases List.mem_cons.mp hz with rfl | hz
        · exact hxy
        · exact htrans hxy (hy z hz)
      · rw [if_neg hxy]
        refine List.pairwise_cons.mpr ⟨?_, ih hys⟩
        intro z hz
        have hz' : z ∈ x :: ys := (insertSorted_perm le x ys).subset hz
        rcases List.mem_cons.mp hz' with hzx | hz'
        · rcases htot x y with h | h
          · exact absurd h hxy
          · rw [hzx]; exact h
        · exact hy z hz'

theorem sortBy_pairwise {α : Type} {le : α → α → Bool}
    (htot : ∀ a b, le a b = true ∨ le b a = true)
    (htrans : ∀ {a b c}, le a b = true → le b c = true → le a c = true)
    (l : List α) : (sortBy le l).Pairwise fun a b => le a b = true := by
  induction l with
  | nil => simp [sortBy]
  | cons x xs ih => exact insertSorted_pairwise htot htrans x ih

theorem sortBy_eq_of_pairwise {α : Type} {le : α → α → Bool} {l : List α}
    (h : l.Pairwise fun a b => le a b = true) : sortBy le l = l := by
  induction l with
  | nil => rfl
  | cons x xs ih =>
      rw [List.pairwise_cons] at h
      obtain ⟨hx, hxs⟩ := h
      show insertSorted le x (sortBy le xs) = x :: xs
      rw [ih hxs]
      cases xs with
      | nil => rfl
      | cons y ys =>
          unfold insertSorted
          rw [if_pos (hx y (List.mem_cons_self y ys))]

theorem defaultLE_total (roster : List Candidate) (a b : ResultRow) :
    defaultLE roster a b = true ∨ defaultLE roster b a = true := by
  unfold defaultLE
  by_cases h : a.votes = b.votes
  · have h' : b.votes = a.votes := h.symm
    rw [if_pos h, if_pos h']
    rcases Nat.le_total (candIdx roster a.id) (candIdx roster b.id) with hle | hle
    · left; exact decide_eq_true hle
    · right; exact decide_eq_true hle
  · have h' : ¬ b.votes = a.votes := fun hh => h hh.symm
    rw [if_neg h, if_neg h']
    rcases lt_or_gt_of_ne h with hlt | hlt
    · right; exact decide_eq_true hlt
    · left; exact decide_eq_true hlt

theorem defaultLE_trans (roster : List Candidate) {a b c : ResultRow}
    (h1 : defaultLE roster a b = true) (h2 : defaultLE roster b c = true) :
    defaultLE roster a c = true := by
  unfold defaultLE at h1 h2 ⊢
  by_cases hab : a.votes = b.votes
  · rw [if_pos hab] at h1
    by_cases hbc : b.votes = c.votes
    · rw [if_pos hbc] at h2
      rw [if_pos (hab.trans hbc)]
      exact decide_eq_true (le_trans (of_decide_eq_true h1) (of_decide_eq_true h2))
    · rw [if_neg hbc] at h2
      have hac : ¬ a.votes = c.votes := by rw [hab]; exact hbc
      rw [if_neg hac]
      exact decide_eq_true (by rw [hab]; exact of_decide_eq_true h2)
  · rw [if_neg hab] at h1
    have g1 := of_decide_eq_true h1
    by_cases hbc : b.votes = c.votes
    · rw [if_pos hbc] at h2
      have hac : ¬ a.votes = c.votes := by rw [← hbc]; exact hab
      rw [if_neg hac]
      exact decide_eq_true (by rw [← hbc]; exact g1)
    · rw [if_neg hbc] at h2
      have hlt : c.votes < a.votes := lt_trans (of_decide_eq_true h2) g1
      have hac : ¬ a.votes = c.votes :=
        fun hh => absurd hlt (by rw [hh]; exact lt_irrefl c.votes)
      rw [if_neg hac]
      exact decide_eq_true hlt

theorem lastIndexOf_eq_none {l : List String} {x : String} :
    lastIndexOf l x = none ↔ x ∉ l := by
  induction l with
  | nil => simp [lastIndexOf]
  | cons a rest ih =>
      cases h : lastIndexOf rest x with
      | some i =>
          have hx : x ∈ rest := by
            by_contra hx
            rw [ih.mpr hx] at h
            cases h
          simp [lastIndexOf, h, hx]
      | none =>
          have hx : x ∉ rest := ih.mp h
          by_cases hax : a = x
          · simp [lastIndexOf, h, hax]
          · have hxa : ¬ x = a := fun hh => hax hh.symm
            simp [lastIndexOf, h, hax, hxa, hx]

theorem lastIndexOf_nodup_getElem {l : List String} (hnd : l.Nodup) (i : Nat)
    (hi : i < l.length) : lastIndexOf l l[i] = some i := by
  induction l generalizing i with
  | nil => simp at hi
  | cons a rest ih =>
      rw [List.nodup_cons] at hnd
      obtain ⟨ha, hrest⟩ := hnd
      cases i with
      | zero =>
          have hnone : lastIndexOf rest a = none := lastIndexOf_eq_none.mpr ha
          simp [lastIndexOf, hnone]
      | succ i =>
          have hi' : i < rest.length := by simpa using hi
          have hres := ih hrest i hi'
          simp [lastIndexOf, hres]

theorem candIdx_getElem (roster : List Candidate)
    (hnodup : (roster.map Candidate.id).Nodup) (i : Nat) (hi : i < roster.length) :
    candIdx roster roster[i].id = i := by
  unfold candIdx
  have h1 : i < (roster.map Candidate.id).length := by simpa using hi
  have h2 : (roster.map Candidate.id)[i] = roster[i].id := by simp
  rw [← h2, lastIndexOf_nodup_getElem hnodup i h1]
  rfl

theorem candIdx_pairwise (roster : List Candidate)
    (hnodup : (roster.map Candidate.id).Nodup) :
    roster.Pairwise fun c d => candIdx roster c.id < candIdx roster d.id := by
  rw [List.pairwise_iff_getElem]
  intro i j hi hj hij
  rw [candIdx_getElem roster hnodup i hi, candIdx_getElem roster hnodup j hj]
  exact hij

theorem candIdx_inj (roster : List Candidate)
    (hnodup : (roster.map Candidate.id).Nodup) {x y : String}
    (hx : x ∈ roster.map Candidate.id) (hy : y ∈ roster.map Candidate.id)
    (hc : candIdx roster x = candIdx roster y) : x = y := by
  obtain ⟨i, hi, hxe⟩ := List.mem_iff_getElem.mp hx
  obtain ⟨j, hj, hye⟩ := List.mem_iff_getElem.mp hy
  have hi' : i < roster.length := by simpa using hi
  have hj' : j < roster.length := by simpa using hj
  have hxe' : x = roster[i].id := by rw [← hxe]; simp
  have hye' : y = roster[j].id := by rw [← hye]; simp
  rw [hxe', hye', candIdx_getElem roster hnodup i hi',
    candIdx_getElem roster hnodup j hj'] at hc
  subst hc
  rw [hxe', hye']

theorem resultRowsOf_map_id (roster : List Candidate) (t : Tally) :
    (resultRowsOf roster t).map ResultRow.id = roster.map Candidate.id := by
  simp only [resultRowsOf, List.map_map]
  rfl

theorem mem_resultRowsOf {roster : List Candidate} {t : Tally} {r : ResultRow}
    (h : r ∈ resultRowsOf roster t) :
    ∃ c ∈ roster, r = ⟨c.id, c.name, c.party, rowVotes t c.id⟩ := by
  simp only [resultRowsOf, List.mem_map] at h
  obtain ⟨c, hc, hr⟩ := h
  exact ⟨c, hc, hr.symm⟩

theorem lastCandidate_some {roster : List Candidate} {cid : String} {c : Candidate}
    (h : lastCandidate roster cid = some c) : c ∈ roster ∧ c.id = cid := by
  induction roster with
  | nil => simp [lastCandidate] at h
  | cons d rest ih =>
      unfold lastCandidate at h
      cases hr : lastCandidate rest cid with
      | some c' =>
          simp only [hr] at h
          injection h with hh
          subst hh
          obtain ⟨hm, hid⟩ := ih hr
          exact ⟨List.mem_cons_of_mem d hm, hid⟩
      | none =>
          simp only [hr] at h
          by_cases hd : d.id = cid
          · rw [if_pos hd] at h
            injection h with hh
            subst hh
            exact ⟨List.mem_cons_self d rest, hd⟩
          · rw [if_neg hd] at h
            exact Option.noConfusion h

theorem lastCandidate_isSome {roster : List Candidate} {cid : String}
    (h : cid ∈ roster.map Candidate.id) : ∃ c, lastCandidate roster cid = some c := by
  induction roster with
  | nil => simp at h
  | cons d rest ih =>
      cases hr : lastCandidate rest cid with
      | some c' => exact ⟨c', by simp [lastCandidate, hr]⟩
      | none =>
          have hcid : cid ∉ rest.map Candidate.id := by
            intro hc
            obtain ⟨c, hcc⟩ := ih hc
            rw [hcc] at hr
            cases hr
          have hor : cid = d.id ∨ cid ∈ rest.map Candidate.id := by simpa using h
          rcases hor with hcd | hcd
          · exact ⟨d, by simp [lastCandidate, hr, hcd.symm]⟩
          · exact absurd hcd hcid

theorem objGet_mem {α : Type} {l : List (String × α)} {k : String} {v : α}
    (h : objGet l k = some v) : (k, v) ∈ l := by
  induction l with
  | nil => simp [objGet] at h
  | cons p rest ih =>
      obtain ⟨k0, w⟩ := p
      by_cases hk : k0 = k
      · subst hk
        simp [objGet] at h
        subst h
        exact List.mem_cons_self _ _
      · simp [objGet, hk] at h
        exact List.mem_cons_of_mem _ (ih h)

theorem mem_objSet {α : Type} {l : List (String × α)} {k : String} {v : α}
    {p : String × α} (h : p ∈ objSet l k v) : p ∈ l ∨ p = (k, v) := by
  induction l with
  | nil =>
      simp only [objSet] at h
      right
      simpa using h
  | cons q rest ih =>
      obtain ⟨k0, w⟩ := q
      by_cases hk : k0 = k
      · subst hk
        simp only [objSet, if_pos rfl] at h
        rcases List.mem_cons.mp h with rfl | h
        · right; rfl
        · left; exact List.mem_cons_of_mem _ h
      · simp only [objSet, if_neg hk] at h
        rcases List.mem_cons.mp h with rfl | h
        · left; exact List.mem_cons_self _ _
        · rcases ih h with h' | h'
          · left; exact List.mem_cons_of_mem _ h'
          · right; exact h'

theorem rowVotes_nonneg {t : Tally} (h : TallyNN t) (cid : String) :
    0 ≤ rowVotes t cid := by
  unfold rowVotes
  cases hg : objGet t cid with
  | none => simp
  | some v =>
      cases v with
      | none => simp
      | some n =>
          obtain ⟨m, hm, hm0⟩ := h (cid, some n) (objGet_mem hg)
          injection hm with hm
          subst hm
          simpa using hm0

theorem finiteCount_eq_rowVotes (t : Tally) (c : String) :
    finiteCount t c = rowVotes t c := rfl

theorem tallyPure_NN {t : Tally} (h : TallyNN t) (c : String) :
    TallyNN (tallyPure (some t) c) := by
  intro p hp
  have hfc : 0 ≤ finiteCount t c := by
    rw [finiteCount_eq_rowVotes]
    exact rowVotes_nonneg h c
  rcases mem_objSet (by simpa [tallyPure] using hp) with hmem | hpe
  · exact h p hmem
  · subst hpe
    exact ⟨finiteCount t c + 1, rfl, by omega⟩

theorem applyOp_NN (roster : List Candidate) (st : ElectionState) (op : Op)
    (h : TallyNN st.votes) : TallyNN (applyOp roster st op).votes := by
  cases op with
  | reg v =>
      rcases registerVoter_snd st v with hst | ⟨i, hst⟩ <;> simp only [applyOp, hst] <;>
        exact h
  | cast vid cid =>
      cases hout : (castVoteStep roster st vid cid).1 with
      | inl r =>
          have hst := castVoteStep_inl_snd roster st vid cid r hout
          simp only [applyOp, hst]
          exact h
      | inr p =>
          obtain ⟨-, -, -, hst⟩ := castVoteStep_inr roster st vid cid p hout
          simp only [applyOp, hst]
          exact tallyPure_NN h cid
  | results => exact h
  | winner => exact h

theorem runOps_NN (roster : List Candidate) (ops : List Op) (st : ElectionState)
    (h : TallyNN st.votes) : TallyNN (runOps roster st ops).votes := by
  induction ops generalizing st with
  | nil => exact h
  | cons op ops ih => exact ih _ (applyOp_NN roster st op h)

/-- C5: default `getResults()` is a permutation of one `{ id, name, party,
votes }` row per roster candidate (votes from the tally, 0 when absent),
strictly ordered by descending vote count with ties broken by ascending
roster index; with an empty tally it is exactly the roster order with all
votes 0. -/
theorem getResults_default_order (roster : List Candidate) (st : ElectionState)
    (hnodup : (roster.map Candidate.id).Nodup) :
    (getResults roster st).Perm (resultRowsOf roster st.votes) ∧
    (getResults roster st).Pairwise
      (fun a b => b.votes < a.votes ∨
        (a.votes = b.votes ∧ candIdx roster a.id < candIdx roster b.id)) ∧
    (st.votes = [] →
      getResults roster st = roster.map fun c => ⟨c.id, c.name, c.party, 0⟩) := by
  have hperm : (getResults roster st).Perm (resultRowsOf roster st.votes) :=
    sortBy_perm _ _
  refine ⟨hperm, ?_, ?_⟩
  · have hle : (getResults roster st).Pairwise
        (fun a b => defaultLE roster a b = true) :=
      sortBy_pairwise (defaultLE_total roster)
        (fun h1 h2 => defaultLE_trans roster h1 h2) _
    have hnd_rows : ((resultRowsOf roster st.votes).map ResultRow.id).Nodup := by
      rw [resultRowsOf_map_id]
      exact hnodup
    have hnd_res : ((getResults roster st).map ResultRow.id).Nodup :=
      ((hperm.map ResultRow.id).symm).nodup hnd_rows
    have hne : (getResults roster st).Pairwise (fun a b => a.id ≠ b.id) :=
      List.pairwise_map.mp hnd_res
    refine (hle.and hne).imp_of_mem ?_
    intro a b ha hb hab
    obtain ⟨hled, hne'⟩ := hab
    have ha' : a.id ∈ roster.map Candidate.id := by
      rw [← resultRowsOf_map_id roster st.votes]
      exact List.mem_map_of_mem ResultRow.id (hperm.subset ha)
    have hb' : b.id ∈ roster.map Candidate.id := by
      rw [← resultRowsOf_map_id roster st.votes]
      exact List.mem_map_of_mem ResultRow.id (hperm.subset hb)
    unfold defaultLE at hled
    by_cases hv : a.votes = b.votes
    · right
      refine ⟨hv, ?_⟩
      rw [if_pos hv] at hled
      have hcc : candIdx roster a.id ≠ candIdx roster b.id :=
        fun hc => hne' (candIdx_inj roster hnodup ha' hb' hc)
      have := of_decide_eq_true hled
      omega
    · left
      rw [if_neg hv] at hled
      exact of_decide_eq_true hled
  · intro hvotes
    have hrows : resultRowsOf roster st.votes =
        roster.map fun c => ⟨c.id, c.name, c.party, 0⟩ := by
      simp [resultRowsOf, hvotes, rowVotes, objGet]
    show sortBy (defaultLE roster) (resultRowsOf roster st.votes) = _
    rw [hrows]
    apply sortBy_eq_of_pairwise
    rw [List.pairwise_map]
    refine (candIdx_pairwise roster hnodup).imp ?_
    intro c d hcd
    simp only [defaultLE, if_pos rfl]
    exact decide_eq_true (Nat.le_of_lt hcd)

/-- Witness for C5: the two-candidate roster with no votes cast yields both
candidates with 0 votes, in roster order. -/
theorem getResults_default_order_witness :
    getResults
        [⟨"C1", "Sarpanch Ram", "Janata"⟩, ⟨"C2", "Pradhan Sita", "Lok"⟩]
        initState
      = [⟨"C1", "Sarpanch Ram", "Janata", 0⟩, ⟨"C2", "Pradhan Sita", "Lok", 0⟩] :=
  (getResults_default_order
      [⟨"C1", "Sarpanch Ram", "Janata"⟩, ⟨"C2", "Pradhan Sita", "Lok"⟩]
      initState (by decide)).2.2 rfl

/-- C4: on every state the election can reach, `getWinner()` is `null`
exactly when the roster is empty or the head of the default-ordered results
has zero votes; otherwise it returns the roster candidate that heads the
results: it has positive votes, the maximum vote count, and the smallest
roster index among the candidates sharing that maximum. -/
theorem getWinner_spec (roster : List Candidate) (ops : List Op)
    (hnodup : (roster.map Candidate.id).Nodup) :
    ∀ st, st = runOps roster initState ops →
      ((getWinner roster st = none ↔
          roster = [] ∨ ∃ r rs, getResults roster st = r :: rs ∧ r.votes = 0) ∧
       ∀ w, getWinner roster st = some w →
         w ∈ roster ∧ 0 < rowVotes st.votes w.id ∧
         (∀ c ∈ roster, rowVotes st.votes c.id ≤ rowVotes st.votes w.id) ∧
         (∀ c ∈ roster, rowVotes st.votes c.id = rowVotes st.votes w.id →
            candIdx roster w.id ≤ candIdx roster c.id) ∧
         ∃ rs, getResults roster st =
           (⟨w.id, w.name, w.party, rowVotes st.votes w.id⟩ : ResultRow) :: rs) := by
  intro st hst
  have hNN : TallyNN st.votes := by
    rw [hst]
    exact runOps_NN roster ops initState (fun p hp => absurd hp (List.not_mem_nil p))
  have hperm : (getResults roster st).Perm (resultRowsOf roster st.votes) :=
    sortBy_perm _ _
  have hpw : (getResults roster st).Pairwise
      (fun a b => defaultLE roster a b = true) :=
    sortBy_pairwise (defaultLE_total roster)
      (fun h1 h2 => defaultLE_trans roster h1 h2) _
  cases hres : getResults roster st with
  | nil =>
      have hrows : resultRowsOf roster st.votes = [] :=
        List.Perm.eq_nil (by rw [hres] at hperm; exact hperm.symm)
      have hro : roster = [] := by
        cases roster with
        | nil => rfl
        | cons c cs => simp [resultRowsOf] at hrows
      have hwn : getWinner roster st = none := by simp [getWinner, hres]
      refine ⟨⟨fun _ => Or.inl hro, fun _ => hwn⟩, ?_⟩
      intro w hw
      rw [hwn] at hw
      exact Option.noConfusion hw
  | cons r rs =>
      have hrmem : r ∈ resultRowsOf roster st.votes :=
        hperm.subset (by rw [hres]; exact List.mem_cons_self r rs)
      obtain ⟨c0, hc0, hr0⟩ := mem_resultRowsOf hrmem
      have hrid : r.id = c0.id := by rw [hr0]
      have hridmem : r.id ∈ roster.map Candidate.id := by
        rw [hrid]
        exact List.mem_map_of_mem _ hc0
      by_cases hz : r.votes = 0
      · have hwn : getWinner roster st = none := by simp [getWinner, hres, hz]
        refine ⟨⟨fun _ => Or.inr ⟨r, rs, rfl, hz⟩, fun _ => hwn⟩, ?_⟩
        intro w hw
        rw [hwn] at hw
        exact Option.noConfusion hw
      · obtain ⟨w, hwc⟩ := lastCandidate_isSome hridmem
        obtain ⟨hwmem, hwid⟩ := lastCandidate_some hwc
        have hws : getWinner roster st = some w := by
          simp [getWinner, hres, hz, hwc]
        have hwc0 : w = c0 :=
          List.inj_on_of_nodup_map hnodup hwmem hc0 (by rw [hwid, hrid])
        subst hwc0
        have hrv : rowVotes st.votes w.id = r.votes := by rw [hwid, hrid, hr0]
        have hhead : ∀ x ∈ rs, defaultLE roster r x = true := by
          rw [hres] at hpw
          exact (List.pairwise_cons.mp hpw).1
        have hdom : ∀ c ∈ roster,
            rowVotes st.votes c.id ≤ r.votes ∧
            (r.votes = rowVotes st.votes c.id →
              candIdx roster r.id ≤ candIdx roster c.id) := by
          intro c hc
          have hxm : (⟨c.id, c.name, c.party, rowVotes st.votes c.id⟩ : ResultRow)
              ∈ resultRowsOf roster st.votes := by
            simp only [resultRowsOf, List.mem_map]
            exact ⟨c, hc, rfl⟩
          have hxr : (⟨c.id, c.name, c.party, rowVotes st.votes c.id⟩ : ResultRow)
              ∈ r :: rs := by
            rw [← hres]
            exact hperm.symm.subset hxm
          rcases List.mem_cons.mp hxr with hxe | hxs
          · have hveq : rowVotes st.votes c.id = r.votes :=
              congrArg ResultRow.votes hxe
            have hideq : c.id = r.id := congrArg ResultRow.id hxe
            exact ⟨le_of_eq hveq, fun _ => le_of_eq (by rw [hideq])⟩
          · have hled : (if r.votes = rowVotes st.votes c.id
                then decide (candIdx roster r.id ≤ candIdx roster c.id)
                else decide (rowVotes st.votes c.id < r.votes)) = true :=
              hhead _ hxs
            by_cases hveq : r.votes = rowVotes st.votes c.id
            · rw [if_pos hveq] at hled
              exact ⟨le_of_eq hveq.symm, fun _ => of_decide_eq_true hled⟩
            · rw [if_neg hveq] at hled
              have := of_decide_eq_true hled
              exact ⟨le_of_lt this, fun hh => absurd hh hveq⟩
        refine ⟨?_, ?_⟩
        · constructor
          · intro hn
            rw [hws] at hn
            exact Option.noConfusion hn
          · intro hor
            rcases hor with hor | ⟨r', rs', hr', hz'⟩
            · subst hor
              simp [resultRowsOf] at hrmem
            · injection hr' with h1 h2
              subst h1
              exact absurd hz' hz
        · intro w' hw'
          rw [hws] at hw'
          injection hw' with hw'
          subst hw'
          refine ⟨hwmem, ?_, ?_, ?_, ⟨rs, ?_⟩⟩
          · have h0 : 0 ≤ rowVotes st.votes w.id := rowVotes_nonneg hNN w.id
            omega
          · intro c hc
            have := (hdom c hc).1
            omega
          · intro c hc hceq
            rw [hwid]
            exact (hdom c hc).2 (by omega)
          · rw [hr0]

/-- Witness for C4: after `V1` votes for `C1`, the winner `C1` has a
positive vote count. -/
theorem getWinner_spec_witness :
    0 < rowVotes
        (runOps [⟨"C1", "Sarpanch Ram", "Janata"⟩, ⟨"C2", "Pradhan Sita", "Lok"⟩]
          initState
          [Op.reg (.obj (some "V1") (some "Mohan") (some 25)),
           Op.cast "V1" "C1"]).votes "C1" :=
  ((getWinner_spec [⟨"C1", "Sarpanch Ram", "Janata"⟩, ⟨"C2", "Pradhan Sita", "Lok"⟩]
      [Op.reg (.obj (some "V1") (some "Mohan") (some 25)), Op.cast "V1" "C1"]
      (by decide)
      (runOps [⟨"C1", "Sarpanch Ram", "Janata"⟩, ⟨"C2", "Pradhan Sita", "Lok"⟩]
        initState
        [Op.reg (.obj (some "V1") (some "Mohan") (some 25)), Op.cast "V1" "C1"])
      rfl).2
    ⟨"C1", "Sarpanch Ram", "Janata"⟩ (by decide)).2.1

theorem checkFields_append_missing (fields : List (String × JValue))
    (pre post : List String) (f : String)
    (hpre : ∀ g ∈ pre, isMissing (fieldGet fields g) = false)
    (hf : isMissing (fieldGet fields f) = true) :
    checkFields fields (pre ++ f :: post) = some f := by
  induction pre with
  | nil => simp [checkFields, hf]
  | cons g gs ih =>
      have hg : isMissing (fieldGet fields g) = false :=
        hpre g (List.mem_cons_self g gs)
      simp only [List.cons_append, checkFields, hg, Bool.false_eq_true, if_false]
      exact ih fun g' hg' => hpre g' (List.mem_cons_of_mem g hg')

theorem checkFields_eq_none (fields : List (String × JValue)) (flds : List String)
    (h : ∀ g ∈ flds, isMissing (fieldGet fields g) = false) :
    checkFields fields flds = none := by
  induction flds with
  | nil => rfl
  | cons g gs ih =>
      have hg : isMissing (fieldGet fields g) = false :=
        h g (List.mem_cons_self g gs)
      simp only [checkFields, hg, Bool.false_eq_true, if_false]
      exact ih fun g' hg' => h g' (List.mem_cons_of_mem g hg')

/-- C8: the validator rejects a non-object voter as `"invalid voter"`;
a required field is missing exactly for `undefined`/`null`/empty-string
values (`0` and `false` count as present); the first missing required field
wins with reason `"missing field: <field>"`; with all required fields
present the result is `"underage"` unless the age is a finite number at
least `minAge`, which defaults to 18 when absent or non-finite. -/
theorem createVoteValidator_spec (rules : Option VRules)
    (fields : List (String × JValue)) (f : String) (pre post : List String) :
    createVoteValidator rules none = .invalid "invalid voter" ∧
    (isMissing .jundefined = true ∧ isMissing .jnull = true ∧
     isMissing (.jstr "") = true ∧ isMissing (.jnum 0) = false ∧
     isMissing (.jbool false) = false ∧
     ∀ s : String, s ≠ "" → isMissing (.jstr s) = false) ∧
    (requiredFieldsOf rules = pre ++ f :: post →
     (∀ g ∈ pre, isMissing (fieldGet fields g) = false) →
     isMissing (fieldGet fields f) = true →
     createVoteValidator rules (some fields) =
       .invalid ("missing field: " ++ f)) ∧
    ((∀ g ∈ requiredFieldsOf rules, isMissing (fieldGet fields g) = false) →
     createVoteValidator rules (some fields) =
       match ageOf fields with
       | some a => if a < minAgeOf rules then .invalid "underage" else .valid
       | none => .invalid "underage") ∧
    (minAgeOf none = 18 ∧ ∀ r : VRules, r.minAge = none → minAgeOf (some r) = 18) := by
  refine ⟨rfl, ⟨rfl, rfl, rfl, rfl, rfl, ?_⟩, ?_, ?_, rfl, ?_⟩
  · intro s hs
    simp [isMissing, string_length_eq_zero, hs]
  · intro hflds hpre hf
    simp [createVoteValidator, hflds,
      checkFields_append_missing fields pre post f hpre hf]
  · intro hall
    simp [createVoteValidator, checkFields_eq_none fields _ hall]
  · intro r hr
    simp [minAgeOf, hr]

/-- Witness for C8: with `minAge 21` and all fields present, a 19-year-old
is rejected as underage (`0`-valued and `false`-valued fields would still
count as present). -/
theorem createVoteValidator_spec_witness :
    createVoteValidator (some ⟨some 21, some ["id", "name", "age"]⟩)
        (some [("id", .jstr "V1"), ("name", .jstr "Mohan"), ("age", .jnum 19)])
      = .invalid "underage" :=
  (createVoteValidator_spec (some ⟨some 21, some ["id", "name", "age"]⟩)
      [("id", .jstr "V1"), ("name", .jstr "Mohan"), ("age", .jnum 19)]
      "" [] []).2.2.2.1 (by decide)

end Panchayat
